import Mathlib

/-!
A shallow embedding, in Lean 4, of the package- and source-resolution front
end found in `src/package_tree.rs`, together with proofs about its behavior.

Conventions of the embedding:
* Rust `AHashMap<String, V>` values are modelled as association lists
  (`List (String × V)`) whose `insert` removes any previous binding of the
  key and appends the new one; `extend` folds `insert` over the new entries
  in order.  Since the Rust code only ever observes maps through key lookup
  and key sets, this preserves the observable semantics.
* Rust `AHashSet<A>` values are modelled as duplicate-free lists with an
  `insert` that is the identity on elements already present.
* External collaborators that are not part of `src/` (the manifest reader
  `bsconfig::read`, the directory lister `structure_hashmap::read_folders`,
  and the module-name primitive `helpers::file_path_to_module_name`) are
  modelled as explicit function parameters, so theorems quantify over every
  possible external behavior.
* Fallible, recursive code (`build_package`, whose Rust version aborts the
  process on a manifest read failure and whose recursion depth is data
  dependent) returns `Option` and takes a fuel parameter.
* The Rust code computes sibling results with `rayon`'s `par_iter` followed
  by an order-preserving `collect` and a sequential merge in declared
  order; the embedding performs the same merges by sequential folds in
  declared order, which is observationally identical.
-/

/-- Map insert: drop every previous binding of the key, append the new one. -/
def minsert {α : Type} (m : List (String × α)) (k : String) (v : α) :
    List (String × α) :=
  m.filter (fun p => p.1 != k) ++ [(k, v)]

/-- Map extend: fold `minsert` over the new bindings in order
(modelling `AHashMap::extend`). -/
def mextend {α : Type} (m news : List (String × α)) : List (String × α) :=
  news.foldl (fun acc p => minsert acc p.1 p.2) m

/-- The key list of an association-list map. -/
def mkeys {α : Type} (m : List (String × α)) : List String :=
  m.map Prod.fst

/-- Key lookup in an association-list map. -/
def mlookup {α : Type} (m : List (String × α)) (k : String) : Option α :=
  (m.find? (fun p => p.1 == k)).map Prod.snd

/-- Set insert: identity on elements already present
(modelling `AHashSet::insert`). -/
def sinsert {α : Type} [DecidableEq α] (s : List α) (x : α) : List α :=
  if x ∈ s then s else s ++ [x]

/-- Set extend: fold `sinsert` over the new elements in order
(modelling `AHashSet::extend`). -/
def sextend {α : Type} [DecidableEq α] (s news : List α) : List α :=
  news.foldl sinsert s

/-! ## The manifest model (`bsconfig::T` and friends)

The crate `bsconfig` is an external collaborator of the code under `src/`.
Modelled from the spec: a manifest carries a package name, one-or-many
source specifications (each a directory plus an optional subdirectory
policy plus an optional kind tag), an optional namespace setting
(boolean or explicit string) and an optional dependency name list. -/

mutual

inductive Source where
  | Shorthand (dir : String)
  | Qualified (spec : PackageSource)

inductive PackageSource where
  | mk (dir : String) (subdirs : Option Subdirs) (type_ : Option String)

inductive Subdirs where
  | Recurse (b : Bool)
  | Qualified (subdirs : List Source)

end

def PackageSource.dir : PackageSource → String
  | .mk d _ _ => d

def PackageSource.subdirs : PackageSource → Option Subdirs
  | .mk _ s _ => s

def PackageSource.type_ : PackageSource → Option String
  | .mk _ _ t => t

mutual

def sourceDecEq : (a b : Source) → Decidable (a = b)
  | .Shorthand d, .Shorthand d' =>
      if h : d = d' then isTrue (h ▸ rfl)
      else isFalse (fun he => h (by injection he))
  | .Shorthand _, .Qualified _ => isFalse (fun he => Source.noConfusion he)
  | .Qualified _, .Shorthand _ => isFalse (fun he => Source.noConfusion he)
  | .Qualified s, .Qualified s' =>
      match psDecEq s s' with
      | isTrue h => isTrue (h ▸ rfl)
      | isFalse h => isFalse (fun he => h (by injection he))
termination_by structural a => a

def psDecEq : (a b : PackageSource) → Decidable (a = b)
  | .mk d s t, .mk d' s' t' =>
      if hd : d = d' then
        match osubDecEq s s' with
        | isTrue hs =>
            if ht : t = t' then isTrue (by rw [hd, hs, ht])
            else isFalse (fun he => ht (by injection he))
        | isFalse hs => isFalse (fun he => hs (by injection he))
      else isFalse (fun he => hd (by injection he))
termination_by structural a => a

def osubDecEq : (a b : Option Subdirs) → Decidable (a = b)
  | none, none => isTrue rfl
  | none, some _ => isFalse (fun he => Option.noConfusion he)
  | some _, none => isFalse (fun he => Option.noConfusion he)
  | some s, some s' =>
      match subDecEq s s' with
      | isTrue h => isTrue (h ▸ rfl)
      | isFalse h => isFalse (fun he => h (by injection he))
termination_by structural a => a

def subDecEq : (a b : Subdirs) → Decidable (a = b)
  | .Recurse b, .Recurse b' =>
      if h : b = b' then isTrue (h ▸ rfl)
      else isFalse (fun he => h (by injection he))
  | .Recurse _, .Qualified _ => isFalse (fun he => Subdirs.noConfusion he)
  | .Qualified _, .Recurse _ => isFalse (fun he => Subdirs.noConfusion he)
  | .Qualified l, .Qualified l' =>
      match listSourceDecEq l l' with
      | isTrue h => isTrue (h ▸ rfl)
      | isFalse h => isFalse (fun he => h (by injection he))
termination_by structural a => a

def listSourceDecEq : (a b : List Source) → Decidable (a = b)
  | [], [] => isTrue rfl
  | [], _ :: _ => isFalse (fun he => List.noConfusion he)
  | _ :: _, [] => isFalse (fun he => List.noConfusion he)
  | x :: xs, y :: ys =>
      match sourceDecEq x y, listSourceDecEq xs ys with
      | isTrue h1, isTrue h2 => isTrue (by rw [h1, h2])
      | isFalse h1, _ => isFalse (fun he => h1 (by injection he))
      | isTrue _, isFalse h2 => isFalse (fun he => h2 (by injection he))
termination_by structural a => a

end

instance : DecidableEq Source := sourceDecEq

instance : DecidableEq PackageSource := psDecEq

instance : DecidableEq Subdirs := subDecEq

/-- The optional namespace setting of a manifest: boolean or explicit string.
Modelled from the spec: `bsconfig::Namespace`. -/
inductive Namespace where
  | Bool (b : Bool)
  | String (s : String)
deriving DecidableEq

/-- One-or-many declared source specifications.
Modelled from the spec: `bsconfig::OneOrMore<Source>`. -/
inductive OneOrMore (α : Type) where
  | Single (a : α)
  | Multiple (as : List α)

/-- A parsed manifest.  Modelled from the spec: `bsconfig::T`, with the
fields the code under `src/` consumes: declared package name, declared
sources, optional namespace setting, optional dependency name list. -/
structure T where
  name : String
  sources : OneOrMore Source
  «namespace» : Option Namespace
  bs_dependencies : Option (List String)

/-- Strip the explicit-children part of a source specification, keeping the
full-recursion flag.  Modelled from the spec: `bsconfig::to_qualified_without_children`
(the normalized form pairs the directory with a copy of the spec whose
subdirectory field is cleared, except that the full-recursion flag is
retained so the file-listing phase knows to recurse). -/
def to_qualified_without_children : Source → PackageSource
  | .Shorthand dir => .mk dir none none
  | .Qualified (.mk dir (some (.Recurse recurse)) type_) =>
      .mk dir (some (.Recurse recurse)) type_
  | .Qualified (.mk dir _ type_) => .mk dir none type_

/-! ## SourceDirectoryResolver (`get_source_dirs`) -/

mutual

/-- Embedding of `get_source_dirs` from `src/package_tree.rs`: expand one
declared source into a flat set of (absolute directory, normalized spec)
entries.  One entry is always inserted for `project_root ++ "/" ++ dir`
paired with `to_qualified_without_children source`; unless the spec is
fully recursive, every explicit child is then resolved with the new
absolute directory as its base and the results are unioned in order. -/
def get_source_dirs : String → Source → List (String × PackageSource)
  | project_root, .Shorthand dir =>
      [(project_root ++ "/" ++ dir, .mk dir none none)]
  | project_root, .Qualified (.mk dir none type_) =>
      [(project_root ++ "/" ++ dir, .mk dir none type_)]
  | project_root, .Qualified (.mk dir (some (.Recurse recurse)) type_) =>
      [(project_root ++ "/" ++ dir, .mk dir (some (.Recurse recurse)) type_)]
  | project_root, .Qualified (.mk dir (some (.Qualified subdirs)) type_) =>
      get_source_dirs_list (project_root ++ "/" ++ dir) subdirs
        [(project_root ++ "/" ++ dir, .mk dir none type_)]

/-- The fold of `get_source_dirs` over an explicit child list, extending the
accumulated entry set child by child (the Rust code computes each child's
set in parallel and then extends sequentially in declared order). -/
def get_source_dirs_list : String → List Source → List (String × PackageSource) →
    List (String × PackageSource)
  | _, [], acc => acc
  | full_path, subdir :: rest, acc =>
      get_source_dirs_list full_path rest
        (sextend acc (get_source_dirs full_path subdir))

end

/-! ## NamingRules (`namespace_from_package_name`)

The Rust code delegates casing to the external `convert_case` crate
(`.to_case(Case::Pascal)`).  Modelled from the spec: split the input on
non-alphanumeric boundaries and on lower-to-upper case transitions, drop
the non-alphanumeric delimiters, capitalize each segment (first character
uppercased, the rest lowercased) and concatenate the segments. -/

/-- Is the character an ASCII uppercase letter? -/
def isUp (c : Char) : Bool := 65 ≤ c.toNat && c.toNat ≤ 90

/-- Is the character an ASCII lowercase letter? -/
def isLow (c : Char) : Bool := 97 ≤ c.toNat && c.toNat ≤ 122

/-- Is the character an ASCII digit? -/
def isDig (c : Char) : Bool := 48 ≤ c.toNat && c.toNat ≤ 57

/-- Is the character ASCII alphanumeric? -/
def isAlnum (c : Char) : Bool := isUp c || isLow c || isDig c

/-- Does a new cased word start at `c`, given the preceding character?
A word starts at the beginning of the input, after a non-alphanumeric
delimiter, and at a lower-to-upper case transition. -/
def wordStart : Option Char → Char → Bool
  | none, _ => true
  | some p, c => !isAlnum p || (isLow p && isUp c)

/-- One pass over the characters: delimiters are dropped, the first
character of each word is uppercased, the rest are lowercased. -/
def pascalAux : Option Char → List Char → List Char
  | _, [] => []
  | prev, c :: cs =>
      if isAlnum c then
        (if wordStart prev c then c.toUpper else c.toLower) :: pascalAux (some c) cs
      else pascalAux (some c) cs

/-- Modelled from the spec: `convert_case`'s `to_case(Case::Pascal)`. -/
def to_case_pascal (s : String) : String := ⟨pascalAux none s.data⟩

/-- Embedding of `namespace_from_package_name` from `src/package_tree.rs`:
strip every `@`, replace every `/` by `_`, Pascal-case the result. -/
def namespace_from_package_name (package_name : String) : String :=
  to_case_pascal ⟨(package_name.data.filter (fun c => c != '@')).map
    (fun c => if c = '/' then '_' else c)⟩

/-- Helper predicate for stating idempotence: given the previous character,
every later character is an ASCII letter and no two consecutive characters
are both uppercase. -/
def shapedTail : Char → List Char → Bool
  | _, [] => true
  | p, c :: cs => (isUp c || isLow c) && !(isUp p && isUp c) && shapedTail c cs

/-- A string is in derived (Pascal-cased, delimiter-free) shape: nonempty,
ASCII letters only, leading uppercase, and no two consecutive uppercase
characters (each word is an uppercase letter followed by lowercase ones). -/
def pascalShaped (s : String) : Bool :=
  match s.data with
  | [] => false
  | c :: cs => isUp c && shapedTail c cs

/-! ## The package record and the graph builder -/

/-- Opaque stand-in for `fs::Metadata`; its content is never inspected by
the code under `src/`. -/
structure Metadata where
  size : Nat
deriving DecidableEq

/-- The external directory lister (`structure_hashmap::read_folders`):
given a directory and a recurse flag, a file-path-to-metadata mapping or
an error. -/
def Fs : Type := String → Bool → Except String (List (String × Metadata))

/-- The external manifest reader (`bsconfig::read`), keyed by the full
path of the manifest file; `none` models the fatal read/parse failure. -/
def Env : Type := String → Option T

/-- The external path-to-module-name primitive
(`helpers::file_path_to_module_name`). -/
def Fmod : Type := String → Option String → String

/-- Embedding of `struct Package` from `src/package_tree.rs`. -/
structure Package where
  name : String
  parent : Option String
  bsconfig : T
  source_folders : List (String × PackageSource)
  source_files : Option (List (String × Metadata))
  «namespace» : Option String
  modules : Option (List String)

/-- The dependency fold of `build_package`: resolve each declared
dependency in declared order and extend the accumulated package map with
each result; any failed manifest read aborts the whole build (in Rust a
panic in any parallel branch aborts the process). -/
def build_deps (f : String → Option (List (String × Package))) :
    List String → List (String × Package) → Option (List (String × Package))
  | [], acc => some acc
  | dep :: rest, acc =>
      match f dep with
      | none => none
      | some child => build_deps f rest (mextend acc child)

/-- The source-folder set computed by `build_package` for one manifest:
resolve the declared source(s) relative to the package directory
(`bsconfig.sources` is one or many; several specs are resolved
independently and their entry sets unioned in declared order). -/
def resolve_source_folders (package_dir : String) (bsconfig : T) :
    List (String × PackageSource) :=
  match bsconfig.sources with
  | .Single source => get_source_dirs package_dir source
  | .Multiple sources =>
      sources.foldl
        (fun acc source => sextend acc (get_source_dirs package_dir source)) []

/-- The `Package` record `build_package` inserts for one manifest. -/
def package_record (bsconfig : T) (parent : Option String)
    (package_dir : String) : Package :=
  { name := bsconfig.name
    parent := parent
    bsconfig := bsconfig
    source_folders := resolve_source_folders package_dir bsconfig
    source_files := none
    «namespace» :=
      match bsconfig.«namespace» with
      | some (.Bool true) => some (namespace_from_package_name bsconfig.name)
      | some (.Bool false) => none
      | none => none
      | some (.String str) =>
          if str = "true" then some (namespace_from_package_name bsconfig.name)
          else some str
    modules := none }

/-- Embedding of `build_package` from `src/package_tree.rs`.  Given a
project root and a package name, compute the package directory (the root
itself when `is_root`, otherwise `project_root/node_modules/package_name`),
read the manifest there, resolve the declared sources, construct the
`Package` record, and recurse over the declared dependencies passing the
same `project_root` and this directory as the parent.  `fuel` bounds the
recursion depth (the Rust recursion is data dependent and diverges on
dependency cycles). -/
def build_package (env : Env) :
    Nat → Bool → String → String → Option String →
    Option (List (String × Package))
  | 0, _, _, _, _ => none
  | fuel + 1, is_root, project_root, package_name, parent =>
      let package_dir :=
        if is_root then project_root
        else project_root ++ "/node_modules/" ++ package_name
      match env (package_dir ++ "/bsconfig.json") with
      | none => none
      | some bsconfig =>
          build_deps
            (fun dep => build_package env fuel false project_root dep (some package_dir))
            (bsconfig.bs_dependencies.getD [])
            (minsert [] package_dir (package_record bsconfig parent package_dir))

/-- The recurse flag `get_source_files` extracts from a normalized spec:
the boolean of a `Recurse` subdirs field, `false` otherwise. -/
def source_recurse (source : PackageSource) : Bool :=
  match source with
  | .mk _ (some (.Recurse subdirs)) _ => subdirs
  | _ => false

/-- Embedding of `get_source_files` from `src/package_tree.rs`: pull the
recurse flag and the kind tag out of the normalized spec, skip `dev`
sources entirely, otherwise list the directory; on failure emit a
diagnostic line and contribute nothing.  The second component collects the
lines the Rust code prints. -/
def get_source_files (fs : Fs) (dir : String) (source : PackageSource) :
    List (String × Metadata) × List String :=
  let rt : Bool × Option String :=
    match source with
    | .mk _ (some (.Recurse subdirs)) type_ => (subdirs, type_)
    | .mk _ _ type_ => (false, type_)
  if rt.2 ≠ some "dev" then
    match fs dir rt.1 with
    | .ok files => (mextend [] files, [])
    | .error _ =>
        if rt.2 = some "dev" then
          ([], ["Could not read folder: " ++ dir ++ "... Probably ok as type is dev"])
        else
          ([], ["Could not read folder: " ++ dir ++ "..."])
  else ([], [])

/-- Embedding of `extend_with_children` from `src/package_tree.rs`: for
every package of the deduplicated map, collect the files of all its
source folders into one map, derive the module-name set from the file
paths (inserting the namespace identifier when one is set), and fill the
`source_files` and `modules` fields. -/
def extend_with_children (fs : Fs) (fmod : Fmod)
    (build : List (String × Package)) : List (String × Package) :=
  build.map (fun kv =>
    (kv.1,
      let value := kv.2
      let map := value.source_folders.foldl
        (fun acc ds => mextend acc (get_source_files fs ds.1 ds.2).1) []
      let modules := sextend []
        ((mkeys map).map (fun key => fmod key value.«namespace»))
      let modules :=
        match value.«namespace» with
        | some ns => sinsert modules ns
        | none => modules
      { value with modules := some modules, source_files := some map }))

/-- Embedding of `make` from `src/package_tree.rs`: build the deduplicated
package map starting from the root manifest, then enrich every package
with its source files and module names. -/
def make (env : Env) (fs : Fs) (fmod : Fmod) (fuel : Nat) (folder : String) :
    Option (List (String × Package)) :=
  (build_package env fuel true folder "" none).map
    (fun packages => extend_with_children fs fmod (mextend [] packages))

/-! ## Concrete data used to instantiate the theorems -/

/-- A directory lister that always succeeds with an empty listing. -/
def fs0 : Fs := fun _ _ => .ok []

/-- A directory lister that always fails. -/
def fsErr : Fs := fun _ _ => .error "unreadable"

/-- A module-name primitive that returns the path itself. -/
def fmod0 : Fmod := fun path _ => path

/-- A minimal manifest with a single shorthand source and given deps. -/
def mkT (name : String) (deps : List String) : T :=
  { name := name
    sources := .Single (.Shorthand "src")
    «namespace» := none
    bs_dependencies := some deps }

/-- A manifest environment in which the root package at `/r` depends on
`x`, and `x` depends on `y`; the manifests of `x` and `y` exist only in
the root's own `node_modules` directory (the flat npm layout), not nested
inside each other. -/
def envC1 : Env := fun path =>
  if path = "/r/bsconfig.json" then some (mkT "root" ["x"])
  else if path = "/r/node_modules/x/bsconfig.json" then some (mkT "x" ["y"])
  else if path = "/r/node_modules/y/bsconfig.json" then some (mkT "y" [])
  else none

/-- A diamond-dependency environment: the root `a` depends on `b` and `c`,
and both depend on `d`.  The manifests of `b` and `c` declare the same
package name `dup`, so that name-keyed and directory-keyed identity can be
told apart. -/
def diamondEnv : Env := fun path =>
  if path = "/r/bsconfig.json" then some (mkT "a" ["b", "c"])
  else if path = "/r/node_modules/b/bsconfig.json" then some (mkT "dup" ["d"])
  else if path = "/r/node_modules/c/bsconfig.json" then some (mkT "dup" ["d"])
  else if path = "/r/node_modules/d/bsconfig.json" then some (mkT "d" [])
  else none

/-- A single-package environment whose manifest sets an explicit string
namespace. -/
def envNs : Env := fun path =>
  if path = "/p/bsconfig.json" then
    some { name := "pkg"
           sources := .Single (.Shorthand "src")
           «namespace» := some (.String "Ns")
           bs_dependencies := none }
  else none

/-- A single-package environment whose manifest sets `namespace` to
boolean true. -/
def envNsTrue : Env := fun path =>
  if path = "/p/bsconfig.json" then
    some { name := "my-pkg"
           sources := .Single (.Shorthand "src")
           «namespace» := some (.Bool true)
           bs_dependencies := none }
  else none

/-! ## Unfolding equations of `build_package` -/

theorem build_package_succ_true (env : Env) (fuel : Nat) (root name : String)
    (parent : Option String) :
    build_package env (fuel + 1) true root name parent =
      match env (root ++ "/bsconfig.json") with
      | none => none
      | some bsconfig =>
          build_deps (fun dep => build_package env fuel false root dep (some root))
            (bsconfig.bs_dependencies.getD [])
            (minsert [] root (package_record bsconfig parent root)) := rfl

theorem build_package_succ_false (env : Env) (fuel : Nat) (root name : String)
    (parent : Option String) :
    build_package env (fuel + 1) false root name parent =
      match env (root ++ "/node_modules/" ++ name ++ "/bsconfig.json") with
      | none => none
      | some bsconfig =>
          build_deps
            (fun dep =>
              build_package env fuel false root dep
                (some (root ++ "/node_modules/" ++ name)))
            (bsconfig.bs_dependencies.getD [])
            (minsert [] (root ++ "/node_modules/" ++ name)
              (package_record bsconfig parent (root ++ "/node_modules/" ++ name))) := rfl

/-! ## Laws of the container model -/

theorem mem_sinsert {α : Type} [DecidableEq α] (s : List α) (x y : α) :
    y ∈ sinsert s x ↔ y ∈ s ∨ y = x := by
  unfold sinsert
  split
  · constructor
    · exact Or.inl
    · rintro (h | rfl) <;> [exact h; assumption]
  · simp

theorem mem_sinsert_self {α : Type} [DecidableEq α] (s : List α) (x : α) :
    x ∈ sinsert s x := by
  rw [mem_sinsert]; exact Or.inr rfl

theorem sinsert_nodup {α : Type} [DecidableEq α] (s : List α) (x : α)
    (h : s.Nodup) : (sinsert s x).Nodup := by
  unfold sinsert
  split
  · exact h
  · next hx => exact List.Nodup.append h (by simp) (by simpa using hx)

theorem sextend_nodup {α : Type} [DecidableEq α] (s t : List α)
    (h : s.Nodup) : (sextend s t).Nodup := by
  induction t generalizing s with
  | nil => exact h
  | cons x ts ih => exact ih _ (sinsert_nodup _ _ h)

theorem mem_sextend {α : Type} [DecidableEq α] (s t : List α) (y : α) :
    y ∈ sextend s t ↔ y ∈ s ∨ y ∈ t := by
  induction t generalizing s with
  | nil => simp [sextend]
  | cons x ts ih =>
      show y ∈ sextend (sinsert s x) ts ↔ _
      rw [ih, mem_sinsert]
      simp [or_assoc]

theorem sextend_eq_append {α : Type} [DecidableEq α] (s t : List α)
    (h : (s ++ t).Nodup) : sextend s t = s ++ t := by
  induction t generalizing s with
  | nil => simp [sextend]
  | cons x ts ih =>
      have hx : x ∉ s := by
        intro hm
        exact (List.disjoint_of_nodup_append h) hm (List.mem_cons_self x ts)
      show sextend (sinsert s x) ts = _
      have : sinsert s x = s ++ [x] := by simp [sinsert, hx]
      rw [this, ih (s ++ [x]) (by simpa using h), List.append_assoc]
      rfl

theorem sextend_length_le {α : Type} [DecidableEq α] (s t : List α) :
    (sextend s t).length ≤ s.length + t.length := by
  induction t generalizing s with
  | nil => simp [sextend]
  | cons x ts ih =>
      show (sextend (sinsert s x) ts).length ≤ _
      have h1 : (sinsert s x).length ≤ s.length + 1 := by
        unfold sinsert; split <;> simp
      calc (sextend (sinsert s x) ts).length
          ≤ (sinsert s x).length + ts.length := ih _
        _ ≤ s.length + 1 + ts.length := by omega
        _ = s.length + (x :: ts).length := by simp; omega

theorem mkeys_append {α : Type} (m m' : List (String × α)) :
    mkeys (m ++ m') = mkeys m ++ mkeys m' := by
  simp [mkeys]

theorem mkeys_minsert {α : Type} (m : List (String × α)) (k : String) (v : α) :
    mkeys (minsert m k v) = (mkeys m).filter (fun k' => k' != k) ++ [k] := by
  unfold minsert
  rw [mkeys_append]
  congr 1
  induction m with
  | nil => rfl
  | cons p ps ih =>
      by_cases h : p.1 = k
      · simp only [mkeys, List.map_cons, List.filter_cons, h] at *
        simp [ih]
      · simp only [mkeys, List.map_cons, List.filter_cons] at *
        simp [h, ih]

theorem mem_mkeys_minsert {α : Type} {m : List (String × α)} {k k' : String}
    {v : α} (h : k' ∈ mkeys (minsert m k v)) : k' ∈ mkeys m ∨ k' = k := by
  rw [mkeys_minsert] at h
  rcases List.mem_append.mp h with h | h
  · exact Or.inl (List.mem_of_mem_filter h)
  · simpa using Or.inr (List.mem_singleton.mp h)

theorem minsert_nodupkeys {α : Type} (m : List (String × α)) (k : String)
    (v : α) (h : (mkeys m).Nodup) : (mkeys (minsert m k v)).Nodup := by
  rw [mkeys_minsert]
  refine List.Nodup.append (List.Nodup.filter _ h) (by simp) ?_
  intro x hx
  have := List.of_mem_filter hx
  simp at this
  simpa using this

theorem mextend_cons {α : Type} (m : List (String × α)) (p : String × α)
    (t : List (String × α)) :
    mextend m (p :: t) = mextend (minsert m p.1 p.2) t := rfl

theorem mem_mkeys_mextend {α : Type} {m t : List (String × α)} {k : String}
    (h : k ∈ mkeys (mextend m t)) : k ∈ mkeys m ∨ k ∈ mkeys t := by
  induction t generalizing m with
  | nil => exact Or.inl h
  | cons p ts ih =>
      rw [mextend_cons] at h
      rcases ih h with h' | h'
      · rcases mem_mkeys_minsert h' with h'' | h''
        · exact Or.inl h''
        · exact Or.inr (by simp [mkeys, h''])
      · exact Or.inr (by simp [mkeys] at h' ⊢; exact Or.inr h')

theorem mextend_nodupkeys {α : Type} (m t : List (String × α))
    (h : (mkeys m).Nodup) : (mkeys (mextend m t)).Nodup := by
  induction t generalizing m with
  | nil => exact h
  | cons p ts ih =>
      rw [mextend_cons]
      exact ih _ (minsert_nodupkeys _ _ _ h)

theorem mlookup_minsert_ne {α : Type} (m : List (String × α)) {k k' : String}
    (v : α) (h : k' ≠ k) : mlookup (minsert m k v) k' = mlookup m k' := by
  have hk : (k == k') = false := by
    simp only [beq_eq_false_iff_ne]; exact fun he => h he.symm
  unfold mlookup minsert
  induction m with
  | nil => simp [hk]
  | cons p ps ih =>
      by_cases hp : p.1 = k
      · have h2 : (p.1 == k') = false := by
          simp only [beq_eq_false_iff_ne, hp]; exact fun he => h he.symm
        simp only [List.filter_cons, hp, bne_self_eq_false, List.find?_cons, h2]
        simpa [h2, hk] using ih
      · have h1 : (p.1 != k) = true := by simp [hp]
        by_cases hp' : p.1 = k'
        · have h2 : (p.1 == k') = true := by simp [hp']
          simp [List.filter_cons, h1, List.cons_append, List.find?_cons, h2]
        · have h2 : (p.1 == k') = false := by simp [hp']
          simp only [List.filter_cons, h1, List.cons_append, List.find?_cons, h2]
          simpa [h2] using ih

theorem mlookup_mextend_ne {α : Type} (m t : List (String × α)) (k : String)
    (h : ∀ k' ∈ mkeys t, k' ≠ k) : mlookup (mextend m t) k = mlookup m k := by
  induction t generalizing m with
  | nil => rfl
  | cons p ts ih =>
      rw [mextend_cons]
      rw [ih _ (fun k' hk' => h k' (by simp [mkeys] at hk' ⊢; exact Or.inr hk'))]
      exact mlookup_minsert_ne _ _ (fun he => (h p.1 (by simp [mkeys])) he.symm)

/-! ## Invariants of the graph builder -/

theorem build_deps_keys {f : String → Option (List (String × Package))}
    {deps : List String} {acc m : List (String × Package)}
    (h : build_deps f deps acc = some m) :
    ∀ k ∈ mkeys m, k ∈ mkeys acc ∨ ∃ d ∈ deps, ∃ c, f d = some c ∧ k ∈ mkeys c := by
  induction deps generalizing acc with
  | nil =>
      cases h
      exact fun k hk => Or.inl hk
  | cons dep rest ih =>
      unfold build_deps at h
      cases hf : f dep with
      | none => rw [hf] at h; cases h
      | some child =>
          rw [hf] at h
          intro k hk
          rcases ih h k hk with h' | ⟨d, hd, c, hc, hkc⟩
          · rcases mem_mkeys_mextend h' with h'' | h''
            · exact Or.inl h''
            · exact Or.inr ⟨dep, by simp, child, hf, h''⟩
          · exact Or.inr ⟨d, by simp [hd], c, hc, hkc⟩

theorem build_deps_nodupkeys {f : String → Option (List (String × Package))}
    {deps : List String} {acc m : List (String × Package)}
    (hacc : (mkeys acc).Nodup) (h : build_deps f deps acc = some m) :
    (mkeys m).Nodup := by
  induction deps generalizing acc with
  | nil => cases h; exact hacc
  | cons dep rest ih =>
      unfold build_deps at h
      cases hf : f dep with
      | none => rw [hf] at h; cases h
      | some child =>
          rw [hf] at h
          exact ih (mextend_nodupkeys _ _ hacc) h

theorem build_deps_mlookup {f : String → Option (List (String × Package))}
    {deps : List String} {acc m : List (String × Package)} {K : String}
    (hK : ∀ d c, f d = some c → ∀ k ∈ mkeys c, k ≠ K)
    (h : build_deps f deps acc = some m) :
    mlookup m K = mlookup acc K := by
  induction deps generalizing acc with
  | nil => cases h; rfl
  | cons dep rest ih =>
      unfold build_deps at h
      cases hf : f dep with
      | none => rw [hf] at h; cases h
      | some child =>
          rw [hf] at h
          rw [ih h]
          exact mlookup_mextend_ne _ _ _ (hK dep child hf)

/-- A dependency key strictly extends the project root, hence differs
from it. -/
theorem dep_key_ne_root (root d : String) :
    root ++ "/node_modules/" ++ d ≠ root := by
  intro h
  have hlen := congrArg String.length h
  rw [String.length_append, String.length_append] at hlen
  have h14 : ("/node_modules/" : String).length = 14 := rfl
  omega

/-- Every key produced by a non-root `build_package` call lies directly
under the `node_modules` directory of the project root passed to it. -/
theorem build_package_false_keys (env : Env) :
    ∀ fuel root name parent m,
      build_package env fuel false root name parent = some m →
      ∀ k ∈ mkeys m, ∃ d, k = root ++ "/node_modules/" ++ d := by
  intro fuel
  induction fuel with
  | zero => intro root name parent m h; cases h
  | succ fuel ih =>
      intro root name parent m h
      rw [build_package_succ_false] at h
      cases henv : env (root ++ "/node_modules/" ++ name ++ "/bsconfig.json") with
      | none => rw [henv] at h; cases h
      | some bsconfig =>
          rw [henv] at h
          intro k hk
          rcases build_deps_keys h k hk with h' | ⟨d, _, c, hc, hkc⟩
          · exact ⟨name, by simpa [minsert, mkeys] using h'⟩
          · exact ih root d _ c hc k hkc

theorem build_package_nodupkeys (env : Env) (fuel : Nat) (is_root : Bool)
    (root name : String) (parent : Option String)
    (m : List (String × Package))
    (h : build_package env fuel is_root root name parent = some m) :
    (mkeys m).Nodup := by
  cases fuel with
  | zero => cases h
  | succ fuel =>
      cases is_root with
      | true =>
          rw [build_package_succ_true] at h
          cases henv : env (root ++ "/bsconfig.json") with
          | none => rw [henv] at h; cases h
          | some bsconfig =>
              rw [henv] at h
              refine build_deps_nodupkeys ?_ h
              simp [minsert, mkeys]
      | false =>
          rw [build_package_succ_false] at h
          cases henv : env (root ++ "/node_modules/" ++ name ++ "/bsconfig.json") with
          | none => rw [henv] at h; cases h
          | some bsconfig =>
              rw [henv] at h
              refine build_deps_nodupkeys ?_ h
              simp [minsert, mkeys]

theorem build_package_root_binding (env : Env) (fuel : Nat) (root : String)
    (name : String) (parent : Option String) (bsconfig : T)
    (m : List (String × Package))
    (henv : env (root ++ "/bsconfig.json") = some bsconfig)
    (h : build_package env (fuel + 1) true root name parent = some m) :
    mlookup m root = some (package_record bsconfig parent root) := by
  rw [build_package_succ_true] at h
  rw [henv] at h
  have hlook := build_deps_mlookup (K := root) ?_ h
  · rw [hlook]
    simp [mlookup, minsert]
  · intro d c hc k hk
    obtain ⟨d', hd'⟩ := build_package_false_keys env fuel root d _ c hc k hk
    rw [hd']
    exact dep_key_ne_root root d'

/-! ## Invariants of the enrichment pass -/

theorem extend_with_children_mkeys (fs : Fs) (fmod : Fmod)
    (build : List (String × Package)) :
    mkeys (extend_with_children fs fmod build) = mkeys build := by
  induction build with
  | nil => rfl
  | cons kv rest ih =>
      simp [extend_with_children, mkeys] at ih ⊢

theorem extend_with_children_fields (fs : Fs) (fmod : Fmod)
    (build : List (String × Package)) :
    ∀ kv ∈ extend_with_children fs fmod build,
      kv.2.source_files.isSome = true ∧ kv.2.modules.isSome = true ∧
      ∀ ns mods, kv.2.«namespace» = some ns → kv.2.modules = some mods →
        ns ∈ mods := by
  intro kv hkv
  simp only [extend_with_children, List.mem_map] at hkv
  obtain ⟨kv₀, _, rfl⟩ := hkv
  refine ⟨rfl, rfl, ?_⟩
  intro ns mods hns hmods
  simp only at hns hmods
  cases hns0 : kv₀.2.«namespace» with
  | none => rw [hns0] at hns; cases hns
  | some ns' =>
      rw [hns0] at hns hmods
      cases hns
      simp only [Option.some.injEq] at hmods
      rw [← hmods]
      exact mem_sinsert_self _ _

theorem make_some {env : Env} {fs : Fs} {fmod : Fmod} {fuel : Nat}
    {folder : String} {m : List (String × Package)}
    (h : make env fs fmod fuel folder = some m) :
    ∃ b, build_package env fuel true folder "" none = some b ∧
      m = extend_with_children fs fmod (mextend [] b) := by
  unfold make at h
  cases hb : build_package env fuel true folder "" none with
  | none => rw [hb] at h; cases h
  | some b =>
      rw [hb] at h
      simp only [Option.map_some', Option.some.injEq] at h
      exact ⟨b, rfl, h.symm⟩

/-! ## Facts about characters and Pascal casing -/

theorem toNat_ofNat_valid (n : Nat) (h : n < 55296) :
    (Char.ofNat n).toNat = n := by
  unfold Char.ofNat
  rw [dif_pos (Or.inl h)]
  rfl

theorem toUpper_eq_of_isUp {c : Char} (h : isUp c = true) : c.toUpper = c := by
  simp only [isUp, Bool.and_eq_true, decide_eq_true_eq] at h
  unfold Char.toUpper
  rw [if_neg (by omega)]

theorem toLower_eq_of_isLow {c : Char} (h : isLow c = true) : c.toLower = c := by
  simp only [isLow, Bool.and_eq_true, decide_eq_true_eq] at h
  unfold Char.toLower
  rw [if_neg (by omega)]

theorem toUpper_cases (c : Char) : c.toUpper = c ∨ isUp c.toUpper = true := by
  unfold Char.toUpper
  by_cases h : c.toNat ≥ 97 ∧ c.toNat ≤ 122
  · right
    rw [if_pos h]
    simp only [isUp, Bool.and_eq_true, decide_eq_true_eq,
      toNat_ofNat_valid (c.toNat - 32) (by omega)]
    omega
  · left; rw [if_neg h]

theorem toLower_cases (c : Char) : c.toLower = c ∨ isLow c.toLower = true := by
  unfold Char.toLower
  by_cases h : c.toNat ≥ 65 ∧ c.toNat ≤ 90
  · right
    rw [if_pos h]
    simp only [isLow, Bool.and_eq_true, decide_eq_true_eq,
      toNat_ofNat_valid (c.toNat + 32) (by omega)]
    omega
  · left; rw [if_neg h]

theorem pascalAux_ne_nil :
    ∀ (l : List Char) (prev : Option Char),
      (∃ c ∈ l, isAlnum c = true) → pascalAux prev l ≠ [] := by
  intro l
  induction l with
  | nil => intro prev h; simp at h
  | cons c cs ih =>
      intro prev h
      by_cases hc : isAlnum c = true
      · simp [pascalAux, hc]
      · obtain ⟨c', hc', ha⟩ := h
        rcases List.mem_cons.mp hc' with rfl | hmem
        · exact absurd ha hc
        · simpa [pascalAux, hc] using ih (some c) ⟨c', hmem, ha⟩

theorem mem_pascalAux :
    ∀ (l : List Char) (prev : Option Char) (x : Char),
      x ∈ pascalAux prev l → ∃ c ∈ l, x = c.toUpper ∨ x = c.toLower := by
  intro l
  induction l with
  | nil => intro prev x h; simp [pascalAux] at h
  | cons c cs ih =>
      intro prev x h
      by_cases hc : isAlnum c = true
      · simp only [pascalAux, hc, if_true] at h
        rcases List.mem_cons.mp h with h1 | hmem
        · refine ⟨c, by simp, ?_⟩
          by_cases hw : wordStart prev c = true
          · left; rw [h1, if_pos hw]
          · right; rw [h1, if_neg hw]
        · obtain ⟨c', hmem', hx⟩ := ih (some c) x hmem
          exact ⟨c', by simp [hmem'], hx⟩
      · obtain ⟨c', hmem', hx⟩ := ih (some c) x (by simpa [pascalAux, hc] using h)
        exact ⟨c', by simp [hmem'], hx⟩

theorem not_mem_pascalAux (l : List Char) (prev : Option Char) (x : Char)
    (hx : x ∉ l) (hup : isUp x = false) (hlow : isLow x = false) :
    x ∉ pascalAux prev l := by
  intro hmem
  obtain ⟨c, hc, hcase⟩ := mem_pascalAux l prev x hmem
  rcases hcase with rfl | rfl
  · rcases toUpper_cases c with he | hu
    · rw [he] at hx; exact hx hc
    · rw [hu] at hup; cases hup
  · rcases toLower_cases c with he | hl
    · rw [he] at hx; exact hx hc
    · rw [hl] at hlow; cases hlow

theorem shapedTail_all_alpha :
    ∀ (l : List Char) (p : Char), shapedTail p l = true →
      ∀ x ∈ l, (isUp x || isLow x) = true := by
  intro l
  induction l with
  | nil => intro p _ x hx; cases hx
  | cons c cs ih =>
      intro p h x hx
      simp only [shapedTail, Bool.and_eq_true] at h
      rcases List.mem_cons.mp hx with rfl | hmem
      · exact h.1.1
      · exact ih c h.2 x hmem

theorem pascalAux_shaped :
    ∀ (l : List Char) (p : Char),
      (isUp p || isLow p) = true → shapedTail p l = true →
      pascalAux (some p) l = l := by
  intro l
  induction l with
  | nil => intro p _ _; rfl
  | cons c cs ih =>
      intro p hp hsh
      simp only [shapedTail, Bool.and_eq_true] at hsh
      obtain ⟨⟨hcA, hne⟩, hrest⟩ := hsh
      have hcn : isAlnum c = true := by
        simp only [isAlnum, hcA, Bool.true_or]
      have hpn : isAlnum p = true := by
        simp only [isAlnum, hp, Bool.true_or]
      by_cases hcU : isUp c = true
      · have hpU : isUp p = false := by
          cases hu : isUp p
          · rfl
          · rw [hu, hcU] at hne; cases hne
        have hpLow : isLow p = true := by
          have hp' : isUp p = true ∨ isLow p = true := by simpa using hp
          rcases hp' with h' | h'
          · rw [h'] at hpU; cases hpU
          · exact h'
        have hws : wordStart (some p) c = true := by
          simp [wordStart, hpn, hpLow, hcU]
        simp [pascalAux, hcn, hws, toUpper_eq_of_isUp hcU,
          ih c (by simp [hcU]) hrest]
      · have hcLow : isLow c = true := by
          have hc' : isUp c = true ∨ isLow c = true := by simpa using hcA
          rcases hc' with h' | h'
          · exact absurd h' hcU
          · exact h'
        have hws : wordStart (some p) c = false := by
          simp [wordStart, hpn, hcU]
        simp [pascalAux, hcn, hws, toLower_eq_of_isLow hcLow,
          ih c (by simp [hcLow]) hrest]

/-! ## Facts about explicit-subdirectory resolution -/

theorem gsdl_nodup :
    ∀ (subs : List Source) (root : String) (acc : List (String × PackageSource)),
      acc.Nodup → (get_source_dirs_list root subs acc).Nodup := by
  intro subs
  induction subs with
  | nil => intro root acc h; exact h
  | cons s rest ih =>
      intro root acc h
      exact ih root _ (sextend_nodup _ _ h)

theorem gsdl_length_le :
    ∀ (subs : List Source) (root : String) (acc : List (String × PackageSource)),
      (get_source_dirs_list root subs acc).length ≤
        acc.length + (subs.map (fun s => (get_source_dirs root s).length)).sum := by
  intro subs
  induction subs with
  | nil => intro root acc; simp [get_source_dirs_list]
  | cons s rest ih =>
      intro root acc
      calc (get_source_dirs_list root (s :: rest) acc).length
          = (get_source_dirs_list root rest
              (sextend acc (get_source_dirs root s))).length := rfl
        _ ≤ (sextend acc (get_source_dirs root s)).length +
              (rest.map (fun s => (get_source_dirs root s).length)).sum := ih root _
        _ ≤ acc.length + (get_source_dirs root s).length +
              (rest.map (fun s => (get_source_dirs root s).length)).sum := by
            have := sextend_length_le acc (get_source_dirs root s)
            omega
        _ = acc.length +
              ((s :: rest).map (fun s => (get_source_dirs root s).length)).sum := by
            simp; omega

theorem gsdl_eq_append :
    ∀ (subs : List Source) (root : String) (acc : List (String × PackageSource)),
      (acc ++ (subs.map (get_source_dirs root)).flatten).Nodup →
      get_source_dirs_list root subs acc =
        acc ++ (subs.map (get_source_dirs root)).flatten := by
  intro subs
  induction subs with
  | nil => intro root acc h; simp [get_source_dirs_list]
  | cons s rest ih =>
      intro root acc h
      have h' : ((acc ++ get_source_dirs root s) ++
          (rest.map (get_source_dirs root)).flatten).Nodup := by
        simpa [List.append_assoc] using h
      have hfirst : (acc ++ get_source_dirs root s).Nodup :=
        List.Nodup.of_append_left h'
      calc get_source_dirs_list root (s :: rest) acc
          = get_source_dirs_list root rest (sextend acc (get_source_dirs root s)) := rfl
        _ = get_source_dirs_list root rest (acc ++ get_source_dirs root s) := by
            rw [sextend_eq_append _ _ hfirst]
        _ = (acc ++ get_source_dirs root s) ++
              (rest.map (get_source_dirs root)).flatten := ih root _ h'
        _ = acc ++ ((s :: rest).map (get_source_dirs root)).flatten := by
            simp [List.append_assoc]

/-- For a duplicate-free accumulator, the deduplicating union reaches the
full combined size exactly when the two sides share nothing and the new
elements are themselves duplicate-free. -/
theorem sextend_length_eq_iff {α : Type} [DecidableEq α] (s t : List α)
    (hs : s.Nodup) :
    (sextend s t).length = s.length + t.length ↔ (s ++ t).Nodup := by
  induction t generalizing s with
  | nil => simp [sextend, hs]
  | cons x ts ih =>
      by_cases hx : x ∈ s
      · have hsi : sinsert s x = s := by simp [sinsert, hx]
        constructor
        · intro hlen
          exfalso
          have hle := sextend_length_le s ts
          rw [show sextend s (x :: ts) = sextend (sinsert s x) ts from rfl,
            hsi] at hlen
          simp only [List.length_cons] at hlen
          omega
        · intro hnd
          exact absurd ((List.disjoint_of_nodup_append hnd) hx
            (List.mem_cons_self x ts)) (fun h => h)
      · have hsi : sinsert s x = s ++ [x] := by simp [sinsert, hx]
        have hnd' : (s ++ [x]).Nodup :=
          List.Nodup.append hs (by simp) (by simpa using hx)
        have harith : s.length + (x :: ts).length =
            (s ++ [x]).length + ts.length := by
          simp
          omega
        have happ : s ++ x :: ts = (s ++ [x]) ++ ts := by simp
        rw [show sextend s (x :: ts) = sextend (sinsert s x) ts from rfl,
          hsi, harith, happ]
        exact ih (s ++ [x]) hnd'

/-- The resolved entry set of an explicit child list reaches the size
1 + (sum of the children's counts) exactly when the accumulated base entry
and all the children's contributions are pairwise distinct. -/
theorem gsdl_length_eq_iff :
    ∀ (subs : List Source) (root : String) (acc : List (String × PackageSource)),
      acc.Nodup →
      ((get_source_dirs_list root subs acc).length =
          acc.length +
            (subs.map (fun s => (get_source_dirs root s).length)).sum ↔
        (acc ++ (subs.map (get_source_dirs root)).flatten).Nodup) := by
  intro subs
  induction subs with
  | nil => intro root acc hacc; simp [get_source_dirs_list, hacc]
  | cons s rest ih =>
      intro root acc hacc
      show ((get_source_dirs_list root rest
          (sextend acc (get_source_dirs root s))).length = _ ↔ _)
      by_cases hnd : (acc ++ get_source_dirs root s).Nodup
      · have hse : sextend acc (get_source_dirs root s) =
            acc ++ get_source_dirs root s := sextend_eq_append _ _ hnd
        have harith : acc.length +
            (((s :: rest).map (fun s => (get_source_dirs root s).length)).sum) =
            (acc ++ get_source_dirs root s).length +
              ((rest.map (fun s => (get_source_dirs root s).length)).sum) := by
          simp [List.length_append]
          omega
        have happ : acc ++ ((s :: rest).map (get_source_dirs root)).flatten =
            (acc ++ get_source_dirs root s) ++
              (rest.map (get_source_dirs root)).flatten := by
          simp [List.append_assoc]
        rw [hse, harith, happ]
        exact ih root _ hnd
      · constructor
        · intro hlen
          exfalso
          have hle := gsdl_length_le rest root
            (sextend acc (get_source_dirs root s))
          have hle2 := sextend_length_le acc (get_source_dirs root s)
          have hne : (sextend acc (get_source_dirs root s)).length ≠
              acc.length + (get_source_dirs root s).length := by
            intro he
            exact hnd ((sextend_length_eq_iff acc _ hacc).mp he)
          simp only [List.map_cons, List.sum_cons] at hlen
          omega
        · intro hnd2
          exfalso
          apply hnd
          have hnd3 : ((acc ++ get_source_dirs root s) ++
              (rest.map (get_source_dirs root)).flatten).Nodup := by
            simpa [List.append_assoc] using hnd2
          exact List.Nodup.of_append_left hnd3

/-! ## The claims -/

/-- C3: for every source spec declaring full recursion (`subdirs` being the
boolean-true recursion flag), `get_source_dirs` returns exactly one
(directory, normalized spec) entry — the base directory joined with the
spec's `dir` — and the normalized spec stored in that entry still carries
the full-recursion flag; no explicit child expansion occurs. -/
theorem full_recursion_yields_single_entry
    (project_root dir : String) (type_ : Option String) :
    get_source_dirs project_root
        (.Qualified (.mk dir (some (.Recurse true)) type_)) =
      [(project_root ++ "/" ++ dir,
        PackageSource.mk dir (some (.Recurse true)) type_)] := rfl

/-- C10 counterexample: a spec with `subdirs = Recurse false` does NOT get
the same `get_source_dirs` expansion as a spec with no `subdirs`: the
normalized spec stored in the single entry retains the `Recurse false`
field on one side and is `none` on the other, so the (directory, spec)
entries differ. -/
theorem recurse_false_counterexample :
    get_source_dirs "b" (.Qualified (.mk "a" (some (.Recurse false)) none)) ≠
      get_source_dirs "b" (.Qualified (.mk "a" none none)) := by
  decide

/-- C10 amended: a spec with `subdirs = Recurse false` and a spec with no
`subdirs` expand to the same single directory (the expansions agree up to
the retained `Recurse false` field of the normalized spec), and
`get_source_files` treats the two normalized specs identically, performing
a non-recursive listing for both. -/
theorem recurse_false_behaves_like_none (base dir : String)
    (t : Option String) (fs : Fs) (d : String) :
    (get_source_dirs base
        (.Qualified (.mk dir (some (.Recurse false)) t))).map Prod.fst =
      (get_source_dirs base (.Qualified (.mk dir none t))).map Prod.fst ∧
    get_source_files fs d (.mk dir (some (.Recurse false)) t) =
      get_source_files fs d (.mk dir none t) ∧
    (t ≠ some "dev" → ∀ files, fs d false = .ok files →
      get_source_files fs d (.mk dir (some (.Recurse false)) t) =
        (mextend [] files, [])) := by
  refine ⟨rfl, rfl, ?_⟩
  intro ht files hf
  simp [get_source_files, ht, hf]

/-- Witness for C10's amended theorem at a concrete input. -/
theorem recurse_false_behaves_like_none_witness :
    get_source_files fs0 "d" (.mk "a" (some (.Recurse false)) none) = ([], []) := by
  have h := (recurse_false_behaves_like_none "b" "a" none fs0 "d").2.2
    (by simp) [] rfl
  simpa [mextend] using h

/-- C4 counterexample: for an explicit child list of length 2 whose two
children are identical, the resolved set has 2 entries, not
1 + (sum of the children's resolved counts) = 3 — the `AHashSet` union
collapses the duplicate contributions. -/
theorem explicit_subdirs_count_counterexample :
    (get_source_dirs "b"
        (.Qualified (.mk "a"
          (some (.Qualified [.Shorthand "x", .Shorthand "x"])) none))).length = 2 ∧
    1 + (([Source.Shorthand "x", Source.Shorthand "x"].map
        (fun s => (get_source_dirs ("b" ++ "/" ++ "a") s).length)).sum) = 3 := by
  exact ⟨rfl, rfl⟩

/-- C4 amended: for a spec declaring an explicit subdirectory list, the
resolved set never contains duplicate (directory, normalized spec) pairs,
its size is at most 1 + (the sum of the children's recursively resolved
entry counts) — with equality exactly when the base entry and the
children's contributions are pairwise distinct — and an empty
explicit-child list yields the same single-entry result as a spec
declaring no subdirectories. -/
theorem explicit_subdirs_resolution (base dir : String) (t : Option String)
    (subs : List Source) :
    (get_source_dirs base
        (.Qualified (.mk dir (some (.Qualified subs)) t))).Nodup ∧
    (get_source_dirs base
        (.Qualified (.mk dir (some (.Qualified subs)) t))).length ≤
      1 + (subs.map
        (fun s => (get_source_dirs (base ++ "/" ++ dir) s).length)).sum ∧
    ((get_source_dirs base
          (.Qualified (.mk dir (some (.Qualified subs)) t))).length =
        1 + (subs.map
          (fun s => (get_source_dirs (base ++ "/" ++ dir) s).length)).sum ↔
      ([(base ++ "/" ++ dir, PackageSource.mk dir none t)] ++
        (subs.map (get_source_dirs (base ++ "/" ++ dir))).flatten).Nodup) ∧
    get_source_dirs base
        (.Qualified (.mk dir (some (.Qualified ([] : List Source))) t)) =
      get_source_dirs base (.Qualified (.mk dir none t)) := by
  refine ⟨?_, ?_, ?_, rfl⟩
  · exact gsdl_nodup subs _ _ (by simp)
  · have h := gsdl_length_le subs (base ++ "/" ++ dir)
      [(base ++ "/" ++ dir, PackageSource.mk dir none t)]
    simpa [Nat.add_comm] using h
  · show ((get_source_dirs_list (base ++ "/" ++ dir) subs
        [(base ++ "/" ++ dir, PackageSource.mk dir none t)]).length = _ ↔ _)
    exact gsdl_length_eq_iff subs (base ++ "/" ++ dir)
      [(base ++ "/" ++ dir, PackageSource.mk dir none t)] (by simp)

/-- Witness for C4's amended theorem: with two distinct children the count
is exactly 1 + 1 + 1 = 3. -/
theorem explicit_subdirs_resolution_witness :
    (get_source_dirs "b"
        (.Qualified (.mk "a"
          (some (.Qualified [.Shorthand "x", .Shorthand "y"])) none))).length = 3 := by
  have h := (explicit_subdirs_resolution "b" "a" none
    [.Shorthand "x", .Shorthand "y"]).2.2.1.mpr (by decide)
  rw [h]
  rfl

/-- The two diagnostic lines of `get_source_files` differ (their suffixes
have different lengths). -/
theorem dev_msg_ne (dir : String) :
    ("Could not read folder: " ++ dir ++ "... Probably ok as type is dev") ≠
      ("Could not read folder: " ++ dir ++ "...") := by
  intro h
  have hlen := congrArg String.length h
  rw [String.length_append, String.length_append, String.length_append,
    String.length_append] at hlen
  have h2 : ("... Probably ok as type is dev" : String).length = 30 := rfl
  have h3 : ("..." : String).length = 3 := rfl
  omega

/-- C7: for every directory and every source spec whose kind tag is `dev`,
`get_source_files` returns an empty map and emits no diagnostic — the
result is the same for every directory lister, so the directory is never
read; consequently the error branch whose diagnostic mentions the dev
kind is unreachable: its message never appears in the output for any
input. -/
theorem dev_sources_skipped :
    (∀ (fs : Fs) (dir : String) (source : PackageSource),
        source.type_ = some "dev" → get_source_files fs dir source = ([], [])) ∧
    (∀ (fs : Fs) (dir : String) (source : PackageSource),
        ("Could not read folder: " ++ dir ++ "... Probably ok as type is dev") ∉
          (get_source_files fs dir source).2) := by
  constructor
  · intro fs dir source h
    rcases source with ⟨d, sd, t⟩
    have ht : t = some "dev" := h
    subst ht
    rcases sd with _ | sd
    · simp [get_source_files]
    · rcases sd with b | l
      · simp [get_source_files]
      · simp [get_source_files]
  · intro fs dir source
    rcases source with ⟨d, sd, t⟩
    by_cases ht : t = some "dev"
    · subst ht
      rcases sd with _ | sd
      · simp [get_source_files]
      · rcases sd with b | l
        · simp [get_source_files]
        · simp [get_source_files]
    · rcases sd with _ | sd
      · cases hfs : fs dir false with
        | ok files => simp [get_source_files, ht, hfs]
        | error e => simp [get_source_files, ht, hfs, dev_msg_ne dir]
      · rcases sd with b | l
        · cases hfs : fs dir b with
          | ok files => simp [get_source_files, ht, hfs]
          | error e => simp [get_source_files, ht, hfs, dev_msg_ne dir]
        · cases hfs : fs dir false with
          | ok files => simp [get_source_files, ht, hfs]
          | error e => simp [get_source_files, ht, hfs, dev_msg_ne dir]

/-- Witness for C7 at a concrete input: an always-failing lister, a `dev`
spec. -/
theorem dev_sources_skipped_witness :
    get_source_files fsErr "d" (.mk "src" none (some "dev")) = ([], []) ∧
    ("Could not read folder: " ++ "d" ++ "... Probably ok as type is dev") ∉
      (get_source_files fsErr "d" (.mk "src" none (some "dev"))).2 := by
  exact ⟨dev_sources_skipped.1 fsErr "d" _ rfl, dev_sources_skipped.2 fsErr "d" _⟩

/-- C8: for every non-`dev` source spec whose directory listing fails,
`get_source_files` logs exactly one diagnostic naming the unreadable path
and returns an empty map; and enrichment never drops a package because of
such a failure — `extend_with_children` always returns a map with exactly
the same keys as its input. -/
theorem unreadable_folder_recovered :
    (∀ (fs : Fs) (dir : String) (source : PackageSource) (e : String),
        source.type_ ≠ some "dev" →
        fs dir (source_recurse source) = .error e →
        get_source_files fs dir source =
          ([], ["Could not read folder: " ++ dir ++ "..."])) ∧
    (∀ (fs : Fs) (fmod : Fmod) (build : List (String × Package)),
        mkeys (extend_with_children fs fmod build) = mkeys build) := by
  constructor
  · intro fs dir source e ht hfs
    rcases source with ⟨d, sd, t⟩
    have ht' : t ≠ some "dev" := ht
    rcases sd with _ | sd
    · simp only [source_recurse] at hfs
      simp [get_source_files, ht', hfs]
    · rcases sd with b | l
      · simp only [source_recurse] at hfs
        simp [get_source_files, ht', hfs]
      · simp only [source_recurse] at hfs
        simp [get_source_files, ht', hfs]
  · exact extend_with_children_mkeys

/-- Witness for C8 at a concrete input: an always-failing lister and an
ordinary spec. -/
theorem unreadable_folder_recovered_witness :
    get_source_files fsErr "d" (.mk "src" none none) =
      ([], ["Could not read folder: " ++ "d" ++ "..."]) := by
  exact unreadable_folder_recovered.1 fsErr "d" _ "unreadable" (by decide) rfl

/-- C5 counterexample: the package name `"@"` (a name containing `@`) maps
to the empty string — stripping the `@` leaves nothing to capitalize — so
`namespace_from_package_name` is not non-empty on every package name. -/
theorem namespace_nonempty_counterexample :
    namespace_from_package_name "@" = "" := rfl

/-- C5 amended: `namespace_from_package_name` is total; its result never
contains `@` or `/`; it is non-empty whenever the package name contains at
least one alphanumeric character; and it fixes every identifier already in
derived (Pascal-cased, delimiter-free) shape. -/
theorem namespace_derivation_properties :
    (∀ s : String, '@' ∉ (namespace_from_package_name s).data ∧
        '/' ∉ (namespace_from_package_name s).data) ∧
    (∀ s : String, (∃ c ∈ s.data, isAlnum c = true) →
        namespace_from_package_name s ≠ "") ∧
    (∀ s : String, pascalShaped s = true → namespace_from_package_name s = s) := by
  refine ⟨?_, ?_, ?_⟩
  · intro s
    have hmem : ∀ x ∈ (s.data.filter (fun c => c != '@')).map
        (fun c => if c = '/' then '_' else c), x ≠ '@' ∧ x ≠ '/' := by
      intro x hx
      obtain ⟨a, ha, hfa⟩ := List.mem_map.mp hx
      by_cases hsl : a = '/'
      · rw [if_pos hsl] at hfa
        rw [← hfa]
        exact ⟨by decide, by decide⟩
      · rw [if_neg hsl] at hfa
        subst hfa
        refine ⟨?_, hsl⟩
        have := (List.mem_filter.mp ha).2
        simpa using this
    constructor
    · exact not_mem_pascalAux _ none '@'
        (fun hx => ((hmem '@' hx).1 rfl)) (by decide) (by decide)
    · exact not_mem_pascalAux _ none '/'
        (fun hx => ((hmem '/' hx).2 rfl)) (by decide) (by decide)
  · intro s h
    obtain ⟨c, hc, ha⟩ := h
    have hca : c ≠ '@' := fun he => by rw [he] at ha; cases ha
    have hcs : c ≠ '/' := fun he => by rw [he] at ha; cases ha
    have hmem : c ∈ (s.data.filter (fun c => c != '@')).map
        (fun c => if c = '/' then '_' else c) := by
      refine List.mem_map.mpr ⟨c, List.mem_filter.mpr ⟨hc, by simpa using hca⟩, ?_⟩
      rw [if_neg hcs]
    intro he
    have hd := congrArg String.data he
    exact pascalAux_ne_nil _ none ⟨c, hmem, ha⟩ hd
  · intro s hsh
    rcases hds : s.data with _ | ⟨c, cs⟩
    · rw [pascalShaped, hds] at hsh; cases hsh
    · rw [pascalShaped, hds] at hsh
      obtain ⟨hcU, htail⟩ : isUp c = true ∧ shapedTail c cs = true := by
        simpa using hsh
      have hall : ∀ x ∈ s.data, (isUp x || isLow x) = true := by
        intro x hx
        rw [hds] at hx
        rcases List.mem_cons.mp hx with rfl | hx'
        · simp [hcU]
        · exact shapedTail_all_alpha cs c htail x hx'
      have hfilter : s.data.filter (fun c => c != '@') = s.data := by
        refine List.filter_eq_self.mpr ?_
        intro a hamem
        have halpha := hall a hamem
        simp only [bne_iff_ne, ne_eq, decide_eq_true_eq]
        intro he
        rw [he] at halpha
        cases halpha
      have hmap : s.data.map (fun c => if c = '/' then '_' else c) = s.data := by
        have hid : ∀ a ∈ s.data, (if a = '/' then '_' else a) = a := by
          intro a hamem
          have halpha := hall a hamem
          refine if_neg ?_
          intro he
          rw [he] at halpha
          cases halpha
        calc s.data.map (fun c => if c = '/' then '_' else c)
            = s.data.map id := List.map_congr_left hid
          _ = s.data := List.map_id _
      have hpas : pascalAux none s.data = s.data := by
        rw [hds]
        have hcn : isAlnum c = true := by simp [isAlnum, isUp] at hcU ⊢; omega
        simp only [pascalAux, hcn, if_true, wordStart]
        rw [toUpper_eq_of_isUp hcU,
          pascalAux_shaped cs c (by simp [hcU]) htail]
      show to_case_pascal ⟨(s.data.filter (fun c => c != '@')).map
        (fun c => if c = '/' then '_' else c)⟩ = s
      rw [hfilter, hmap]
      show (⟨pascalAux none s.data⟩ : String) = s
      rw [hpas]

/-- Witness for C5's amended theorem: a Pascal-shaped identifier is fixed,
and a real scoped package name maps to something non-empty. -/
theorem namespace_derivation_properties_witness :
    namespace_from_package_name "FooBar" = "FooBar" ∧
    namespace_from_package_name "@scope/my-pkg" ≠ "" := by
  constructor
  · exact namespace_derivation_properties.2.2 "FooBar" (by decide)
  · exact namespace_derivation_properties.2.1 "@scope/my-pkg" (by decide)

/-- C6: the namespace field of the constructed Package is the identifier
derived from the package name when the manifest's namespace setting is
boolean-true or the literal string `"true"`; the explicit string itself
when the setting is any other string; and absent when the setting is
absent or boolean-false. -/
theorem namespace_field_from_manifest (env : Env) (fuel : Nat)
    (root name : String) (parent : Option String) (bsconfig : T)
    (m : List (String × Package))
    (henv : env (root ++ "/bsconfig.json") = some bsconfig)
    (h : build_package env (fuel + 1) true root name parent = some m) :
    ∃ pkg, mlookup m root = some pkg ∧
      ((bsconfig.«namespace» = some (.Bool true) ∨
          bsconfig.«namespace» = some (.String "true")) →
        pkg.«namespace» = some (namespace_from_package_name bsconfig.name)) ∧
      (∀ str, bsconfig.«namespace» = some (.String str) → str ≠ "true" →
        pkg.«namespace» = some str) ∧
      ((bsconfig.«namespace» = none ∨
          bsconfig.«namespace» = some (.Bool false)) →
        pkg.«namespace» = none) := by
  refine ⟨package_record bsconfig parent root,
    build_package_root_binding env fuel root name parent bsconfig m henv h,
    ?_, ?_, ?_⟩
  · rintro (hns | hns) <;> simp [package_record, hns]
  · intro str hns hstr
    simp [package_record, hns, hstr]
  · rintro (hns | hns) <;> simp [package_record, hns]

/-- Witness for C6 at a concrete input: an explicit string namespace is
kept verbatim. -/
theorem namespace_field_from_manifest_witness :
    (mlookup ((build_package envNs 1 true "/p" "" none).getD []) "/p").map
      Package.«namespace» = some (some "Ns") := by
  obtain ⟨pkg, hl, _, hstr, _⟩ := namespace_field_from_manifest envNs 0 "/p" ""
    none
    { name := "pkg"
      sources := .Single (.Shorthand "src")
      «namespace» := some (.String "Ns")
      bs_dependencies := none }
    ((build_package envNs 1 true "/p" "" none).getD []) rfl rfl
  rw [hl]
  simp only [Option.map_some']
  rw [hstr "Ns" rfl (by decide)]

/-- C1 counterexample: with the root at `/r` depending on `x` and `x`
depending on `y`, the graph build succeeds although no manifest exists at
`/r/node_modules/x/node_modules/y` (the location the claim prescribes for
a depth-2 dependency): `y`'s manifest is read at `/r/node_modules/y`
instead, as the produced key set shows, so the directory computed for a
dependency is not the declaring package's directory joined with
`node_modules` at every depth. -/
theorem dependency_directory_counterexample :
    mkeys ((build_package envC1 4 true "/r" "" none).getD []) =
      ["/r", "/r/node_modules/x", "/r/node_modules/y"] ∧
    "/r/node_modules/x/node_modules/y" ∉
      mkeys ((build_package envC1 4 true "/r" "" none).getD []) ∧
    envC1 "/r/node_modules/x/node_modules/y/bsconfig.json" = none := by
  refine ⟨by decide, by decide, rfl⟩

/-- C1 amended: the directory computed for a dependency, at every depth of
the recursion, is the original project root joined with `node_modules` and
the dependency name — the root directory is passed unchanged through the
recursion — so the dependency's manifest is read at
`project_root/node_modules/name/bsconfig.json`, and every key the subtree
produces lies directly under the project root's `node_modules`.  This
coincides with `D/node_modules/X` for a declaring package at directory `D`
only when the declarer is the root package. -/
theorem dependency_directory_amended (env : Env) (fuel : Nat)
    (root dep : String) (parent : Option String)
    (m : List (String × Package))
    (h : build_package env fuel false root dep parent = some m) :
    (∃ bsconfig,
        env (root ++ "/node_modules/" ++ dep ++ "/bsconfig.json") =
          some bsconfig) ∧
    ∀ k ∈ mkeys m, ∃ d, k = root ++ "/node_modules/" ++ d := by
  constructor
  · cases fuel with
    | zero => cases h
    | succ fuel =>
        rw [build_package_succ_false] at h
        cases henv : env (root ++ "/node_modules/" ++ dep ++ "/bsconfig.json") with
        | none => rw [henv] at h; cases h
        | some b => exact ⟨b, rfl⟩
  · exact build_package_false_keys env fuel root dep parent m h

/-- Witness for C1's amended theorem at a concrete input. -/
theorem dependency_directory_amended_witness :
    (envC1 ("/r" ++ "/node_modules/" ++ "x" ++ "/bsconfig.json")).isSome = true := by
  obtain ⟨⟨b, hb⟩, -⟩ := dependency_directory_amended envC1 3 "/r" "x"
    (some "/r") ((build_package envC1 3 false "/r" "x" (some "/r")).getD []) rfl
  rw [hb]
  rfl

/-- C2: the map returned by `make` holds exactly one Package record per
unique package directory — its key list has no duplicates — with the
directory as the deduplication key. -/
theorem unique_package_per_directory (env : Env) (fs : Fs) (fmod : Fmod)
    (fuel : Nat) (folder : String) (m : List (String × Package))
    (h : make env fs fmod fuel folder = some m) :
    (mkeys m).Nodup := by
  obtain ⟨b, hb, rfl⟩ := make_some h
  rw [extend_with_children_mkeys]
  exact mextend_nodupkeys [] b (by simp [mkeys])

/-- Witness for C2 on the concrete diamond (`a` depends on `b` and `c`,
both of which depend on `d`): the returned map's keys are duplicate-free,
`d`'s directory appears exactly once, and the two same-named packages at
different directories are both present (names are not the dedup key). -/
theorem unique_package_per_directory_witness :
    (mkeys ((make diamondEnv fs0 fmod0 4 "/r").getD [])).Nodup ∧
    (mkeys ((make diamondEnv fs0 fmod0 4 "/r").getD [])).count
      "/r/node_modules/d" = 1 ∧
    (((make diamondEnv fs0 fmod0 4 "/r").getD []).map
      (fun kv => kv.2.name)).count "dup" = 2 := by
  refine ⟨unique_package_per_directory diamondEnv fs0 fmod0 4 "/r" _ rfl, ?_, ?_⟩
  · decide
  · decide

/-- C9: after `make` completes, every Package in the returned map has
`source_files` and `modules` both present, and whenever its namespace is
set, that namespace identifier is a member of its module set. -/
theorem enrichment_fills_fields (env : Env) (fs : Fs) (fmod : Fmod)
    (fuel : Nat) (folder : String) (m : List (String × Package))
    (h : make env fs fmod fuel folder = some m) :
    ∀ kv ∈ m, kv.2.source_files.isSome = true ∧ kv.2.modules.isSome = true ∧
      ∀ ns mods, kv.2.«namespace» = some ns → kv.2.modules = some mods →
        ns ∈ mods := by
  obtain ⟨b, hb, rfl⟩ := make_some h
  exact extend_with_children_fields fs fmod _

/-- Witness for C9 at a concrete input whose manifest requests a derived
namespace. -/
theorem enrichment_fills_fields_witness :
    (((make envNsTrue fs0 fmod0 1 "/p").getD []).all
      (fun kv => kv.2.source_files.isSome && kv.2.modules.isSome)) = true ∧
    (((make envNsTrue fs0 fmod0 1 "/p").getD []).all
      (fun kv =>
        match kv.2.modules, kv.2.«namespace» with
        | some mods, some ns => decide (ns ∈ mods)
        | _, _ => true)) = true := by
  have h := enrichment_fills_fields envNsTrue fs0 fmod0 1 "/p"
    ((make envNsTrue fs0 fmod0 1 "/p").getD []) rfl
  constructor
  · rw [List.all_eq_true]
    intro kv hkv
    have h' := h kv hkv
    simp [h'.1, h'.2.1]
  · decide
